import Mathlib

/-!
Verification of the shcv reference-reconciliation engine, template scanner and
deployment-strategy injector (package `pkg/shcv`, files `shcv.go` and
`parser.go`).

Modelling conventions:
* Go's `map[string]any` values trees become association lists
  `List (String × Val)`; `getKey` is map lookup and `setKey` is map update
  (replace-or-append), which is all the Go code uses, so map iteration order
  never matters.
* Go strings are modelled as `List Char` on the scanner side (the inputs of
  interest are ASCII, where Go's byte-level scanning and character-level
  scanning coincide) and as `String` on the values-tree side.
* Go loops that advance a cursor through the input are modelled with a fuel
  parameter; every such loop in the source advances `pos` by at least one per
  iteration and stops at `pos ≥ len(input)`, so fuel `input.length + 1`
  (supplied at every call site, as `maxFuel`) always suffices and the
  out-of-fuel branches are unreachable for the top-level entry points.
-/

namespace Shcv

/-- A node of a values tree: Go's `any` restricted to what the program
produces and consumes — scalar strings (what `setNestedValue` writes),
integers (what the deployment strategy constant holds) and nested
`map[string]any` mappings. -/
inductive Val where
  | vStr (s : String)
  | vInt (n : Int)
  | vMap (m : List (String × Val))

/-- A values tree (`ValueFile.Values` in Go): a string-keyed mapping. -/
abbrev Values := List (String × Val)

/-- Map lookup, `values[k]` of Go. -/
def getKey : Values → String → Option Val
  | [], _ => none
  | (k2, v) :: rest, k => if k2 = k then some v else getKey rest k

/-- Map update, `values[k] = v` of Go: replace the binding if the key is
present, otherwise add it. -/
def setKey : Values → String → Val → Values
  | [], k, v => [(k, v)]
  | (k2, v2) :: rest, k, v =>
    if k2 = k then (k, v) :: rest else (k2, v2) :: setKey rest k v

/-- Go `strings.Split(path, ".")` on the character list of a Go string: split on
every dot; the empty input yields `[[]]`, exactly as in Go. -/
def splitDot : List Char → List (List Char)
  | [] => [[]]
  | c :: rest =>
    if c = '.' then [] :: splitDot rest
    else
      match splitDot rest with
      | [] => [[c]]
      | l :: ls => (c :: l) :: ls

/-- Rejoin dot-separated segments; the inverse of `splitDot`. -/
def joinDot : List (List Char) → List Char
  | [] => []
  | [l] => l
  | l :: l2 :: rest => l ++ '.' :: joinDot (l2 :: rest)

/-- The dot-path segments of a path string (`strings.Split(path, ".")`). -/
def splitPath (path : String) : List String :=
  (splitDot path.toList).map fun l => String.mk l

/-- The body of `setNestedValue` of shcv.go, on the already-split segment list: walk the
non-final segments, creating an empty mapping where a segment is missing and
replacing a non-mapping value by an empty mapping (the documented destructive
coercion), then bind the final segment to the scalar `value`.  The `[]`
segment case is unreachable from `setNestedValue` (Go's `strings.Split` never
returns an empty slice). -/
def setNestedParts (values : Values) : List String → String → Values
  | [], _ => values
  | [k], value => setKey values k (Val.vStr value)
  | k :: k2 :: rest, value =>
    match getKey values k with
    | some (Val.vMap sub) =>
      setKey values k (Val.vMap (setNestedParts sub (k2 :: rest) value))
    | _ => setKey values k (Val.vMap (setNestedParts [] (k2 :: rest) value))

/-- Model of `setNestedValue(values, path, value)` of shcv.go. -/
def setNestedValue (values : Values) (path value : String) : Values :=
  setNestedParts values (splitPath path) value

/-- The body of `valueExists` of shcv.go on segment lists: each non-final segment must
hold a nested mapping; the final segment may hold anything.  An empty segment
list falls through the Go loop and returns true. -/
def valueExistsParts (values : Values) : List String → Bool
  | [] => true
  | [k] => (getKey values k).isSome
  | k :: k2 :: rest =>
    match getKey values k with
    | some (Val.vMap sub) => valueExistsParts sub (k2 :: rest)
    | _ => false

/-- Model of `valueExists(values, path)` of shcv.go. -/
def valueExists (values : Values) (path : String) : Bool :=
  valueExistsParts values (splitPath path)

/-- Observation function (not in the Go source): the value a segment list
resolves to, walking mappings exactly as `valueExists` does.  Used to state
what reconciliation leaves untouched. -/
def getNested (values : Values) : List String → Option Val
  | [] => none
  | [k] => getKey values k
  | k :: k2 :: rest =>
    match getKey values k with
    | some (Val.vMap sub) => getNested sub (k2 :: rest)
    | _ => none

/-- Observation function (not in the Go source): `strictPrefixOf p q` holds
when segment list `p` is a proper prefix of `q` — the situation in which
creating path `q` passes through (and may destructively coerce) the entry at
path `p`. -/
def strictPrefixOf : List String → List String → Bool
  | [], [] => false
  | [], _ :: _ => true
  | _ :: _, [] => false
  | a :: p, b :: q => a == b && strictPrefixOf p q

/-- Model of `ValueRef` of shcv.go. -/
structure ValueRef where
  Path : String
  DefaultValue : String
  SourceFile : String
  LineNumber : Nat
deriving DecidableEq

/-- The second pass of `ProcessReferences` (shcv.go lines 213-235): walk the
reference list in order, keep the first reference of each distinct path, and
replace its default by the default of the first reference over the whole
list (`all`) that has the same path and a non-empty default (the Go inner
loop with its `break`); if there is none, the reference keeps its own
default. -/
def collectRefs (all : List ValueRef) : List ValueRef → List String → List ValueRef
  | [], _ => []
  | r :: rest, seen =>
    if r.Path ∈ seen then collectRefs all rest seen
    else
      { r with
        DefaultValue :=
          match all.find? (fun q => q.Path == r.Path && q.DefaultValue != "") with
          | some q => q.DefaultValue
          | none => r.DefaultValue } :: collectRefs all rest (r.Path :: seen)

/-- The deduplicated reference list (`templateRefs` of `ProcessReferences`). -/
def templateRefs (refs : List ValueRef) : List ValueRef :=
  collectRefs refs refs []

/-- The default that `ProcessReferences`'s second pass resolves for `path`:
the default of the first reference in scan order whose path matches and
whose default is non-empty, or the empty string when there is none. -/
def firstDefault (refs : List ValueRef) (path : String) : String :=
  match refs.find? (fun q => q.Path == path && q.DefaultValue != "") with
  | some q => q.DefaultValue
  | none => ""

/-- The third pass of `ProcessReferences` (shcv.go lines 238-249) on one
values tree: for each collected reference whose path does not yet exist,
create it with the resolved default and mark the tree changed. -/
def applyRefs : List ValueRef → Values → Bool → Values × Bool
  | [], values, changed => (values, changed)
  | r :: rest, values, changed =>
    if valueExists values r.Path then applyRefs rest values changed
    else applyRefs rest (setNestedValue values r.Path r.DefaultValue) true

/-- Model of `ProcessReferences` of shcv.go, restricted to the reference-merge passes
(the dedup/default-resolution pass and the per-tree create-missing pass) on a
single values tree with its `Changed` flag.  The first pass (the
deployment-strategy injection, which reads and writes template files) is
modelled separately by `injectDeploymentStrategy`; the Go method applies the
merge independently to each configured values file, which this models
per-tree. -/
def processReferences (refs : List ValueRef) (values : Values) (changed : Bool) :
    Values × Bool :=
  applyRefs (templateRefs refs) values changed

/-! ### The template scanner (parser.go)

The Go parser carries a mutable `pos` (byte index) and `lineNum` (1-based
line counter) over an immutable `input`.  We model the scanner state as a
`PState`; functions that only ever touch `pos` in the source take and return
a bare position. -/

/-- The mutable scanner state of `parser` (parser.go): the cursor and the
line counter.  The input and template name are passed separately since the
source never mutates them. -/
structure PState where
  pos : Nat
  lineNum : Nat
deriving DecidableEq

/-- Model of `p.current()`: the character at the cursor, or the zero character past
the end of the input. -/
def currentChar (input : List Char) (pos : Nat) : Char :=
  (input.drop pos).headD (Char.ofNat 0)

/-- Model of `isWhitespace` of parser.go. -/
def goIsWhitespace (c : Char) : Bool :=
  c = ' ' || c = '\t' || c = '\n' || c = '\r'

/-- Model of `isAlphaNumeric` of parser.go. -/
def goIsAlphaNumeric (c : Char) : Bool :=
  ('a' ≤ c && c ≤ 'z') || ('A' ≤ c && c ≤ 'Z') || ('0' ≤ c && c ≤ '9')

/-- Model of `isValidPathChar` of parser.go. -/
def isValidPathChar (c : Char) : Bool :=
  goIsAlphaNumeric c || c = '.' || c = '-' || c = '_'

/-- Model of `isDigit` of parser.go. -/
def goIsDigit (c : Char) : Bool :=
  '0' ≤ c && c ≤ '9'

/-- The test of `p.match(s)`: whether `s` starts at the cursor (Go's slice
comparison with its bounds check).  Where the source's `match` succeeds the
cursor advances by `s.length`, written explicitly at each use site. -/
def matchesAt (input : List Char) (pos : Nat) (s : List Char) : Bool :=
  s.isPrefixOf (input.drop pos)

/-- The `{{` delimiter (`openBrace` of parser.go). -/
def openBraceTok : List Char := ['\x7b', '\x7b']

/-- The `}}` delimiter (`closeBrace` of parser.go). -/
def closeBraceTok : List Char := ['\x7d', '\x7d']

/-- The `.Values.` prefix (`valuePrefix` of parser.go). -/
def valuePrefixTok : List Char := ['.', 'V', 'a', 'l', 'u', 'e', 's', '.']

/-- The `default` keyword (`defaultFunc` of parser.go). -/
def defaultFuncTok : List Char := ['d', 'e', 'f', 'a', 'u', 'l', 't']

/-- Model of `p.skipWhitespace()`: advance over whitespace, bumping the line counter
at each newline.  Fuel bounds the iteration count; `input.length + 1` always
suffices since each step advances `pos`. -/
def skipWhitespace (input : List Char) : Nat → PState → PState
  | 0, st => st
  | fuel + 1, st =>
    if st.pos < input.length && goIsWhitespace (currentChar input st.pos) then
      skipWhitespace input fuel
        { pos := st.pos + 1,
          lineNum :=
            if currentChar input st.pos = '\n' then st.lineNum + 1 else st.lineNum }
    else st

/-- The loop of `parseValuePath` (parser.go): accumulate path characters,
returning the empty list exactly where Go returns the empty string
(consecutive dots, or a path that is empty or ends in a dot).  Only `pos`
moves; `lineNum` is untouched in the source.  `lastWasDot` starts `true` to
reject a leading dot. -/
def parseValuePathLoop (input : List Char) :
    Nat → Nat → List Char → Bool → List Char × Nat
  | 0, pos, acc, lastWasDot =>
    if lastWasDot then ([], pos) else (acc, pos)
  | fuel + 1, pos, acc, lastWasDot =>
    if pos < input.length then
      let ch := currentChar input pos
      if ch = '.' then
        if lastWasDot then ([], pos)
        else parseValuePathLoop input fuel (pos + 1) (acc ++ [ch]) true
      else if isValidPathChar ch then
        parseValuePathLoop input fuel (pos + 1) (acc ++ [ch]) false
      else if lastWasDot then ([], pos)
      else (acc, pos)
    else if lastWasDot then ([], pos)
    else (acc, pos)

/-- The quoted-string branch of `parseDefaultValue` (parser.go): consume up
to the matching unescaped quote, honouring backslash escapes; an unclosed
quote yields the empty string with the cursor at the end of input.  Only
`pos` moves (newlines inside quotes do not bump the line counter in the
source). -/
def parseQuoted (input : List Char) (quote : Char) :
    Nat → Nat → List Char → Bool → List Char × Nat
  | 0, pos, _, _ => ([], pos)
  | fuel + 1, pos, acc, escaped =>
    if pos < input.length then
      let ch := currentChar input pos
      if escaped then parseQuoted input quote fuel (pos + 1) (acc ++ [ch]) false
      else if ch = '\\' then parseQuoted input quote fuel (pos + 1) acc true
      else if ch = quote then (acc, pos + 1)
      else parseQuoted input quote fuel (pos + 1) (acc ++ [ch]) false
    else ([], pos)

/-- The numeric branch of `parseDefaultValue` (parser.go): consume digits
and dots. -/
def parseNumeric (input : List Char) : Nat → Nat → List Char → List Char × Nat
  | 0, pos, acc => (acc, pos)
  | fuel + 1, pos, acc =>
    if pos < input.length &&
        (goIsDigit (currentChar input pos) || currentChar input pos = '.') then
      parseNumeric input fuel (pos + 1) (acc ++ [currentChar input pos])
    else (acc, pos)

/-- Fuel that always suffices for any single scanner loop over `input`:
every loop advances the cursor at least once per iteration and stops at the
end of the input. -/
def maxFuel (input : List Char) : Nat := input.length + 1

/-- Model of `parseDefaultValue` of parser.go: skip whitespace (this is the only part
that can bump the line counter), then parse a quoted string or a bare
numeric literal. -/
def parseDefaultValue (input : List Char) (st : PState) : List Char × PState :=
  let st1 := skipWhitespace input (maxFuel input) st
  let ch := currentChar input st1.pos
  if ch = Char.ofNat 34 || ch = Char.ofNat 39 then
    let r := parseQuoted input ch (maxFuel input) (st1.pos + 1) [] false
    (r.1, { st1 with pos := r.2 })
  else
    let r := parseNumeric input (maxFuel input) st1.pos []
    (r.1, { st1 with pos := r.2 })

/-- The inner skip loop of `parseValueRef`'s pipe handling (parser.go lines
91-96): advance until the next `|` or a `}}` delimiter.  Only `pos` moves. -/
def skipToPipeOrClose (input : List Char) : Nat → Nat → Nat
  | 0, pos => pos
  | fuel + 1, pos =>
    if pos < input.length then
      if currentChar input pos = '|' || closeBraceTok.isPrefixOf (input.drop pos) then
        pos
      else skipToPipeOrClose input fuel (pos + 1)
    else pos

/-- The pipe loop of `parseValueRef` (parser.go lines 79-97): while a `|`
follows, match the `default` keyword (a prefix match, as `p.match` is) and
re-capture the default value if it does, then skip to the next pipe or the
closing delimiter.  Note that every pipe segment is examined, and each
`default` segment overwrites the previously captured default. -/
def pipeLoop (input : List Char) : Nat → PState → List Char → List Char × PState
  | 0, st, dv => (dv, st)
  | fuel + 1, st, dv =>
    if st.pos < input.length then
      let st1 := skipWhitespace input (maxFuel input) st
      if matchesAt input st1.pos ['|'] then
        let st3 := skipWhitespace input (maxFuel input) { st1 with pos := st1.pos + 1 }
        if matchesAt input st3.pos defaultFuncTok then
          let r := parseDefaultValue input
            (skipWhitespace input (maxFuel input)
              { st3 with pos := st3.pos + defaultFuncTok.length })
          pipeLoop input fuel
            { r.2 with pos := skipToPipeOrClose input (maxFuel input) r.2.pos } r.1
        else
          pipeLoop input fuel
            { st3 with pos := skipToPipeOrClose input (maxFuel input) st3.pos } dv
      else (dv, st1)
    else (dv, st)

/-- Model of `parseValueRef` of parser.go, entered with the cursor just past the `{{`
delimiter (`start` is that position).  On a missing `.Values.` prefix the
source sets `p.pos = start + 2` — two characters past the position that was
already past the delimiter — and the line-counter increments done by the
whitespace skip are kept.  On success the emitted reference carries
`p.lineNum` as it stands at emission time. -/
def parseValueRef (input : List Char) (st : PState) (template : String) :
    Option ValueRef × PState :=
  let start := st.pos
  let st1 := skipWhitespace input (maxFuel input) st
  if matchesAt input st1.pos valuePrefixTok then
    let pr := parseValuePathLoop input (maxFuel input)
      (st1.pos + valuePrefixTok.length) [] true
    if pr.1.isEmpty then (none, { st1 with pos := pr.2 })
    else
      let r := pipeLoop input (maxFuel input) { st1 with pos := pr.2 } []
      let st5 := skipWhitespace input (maxFuel input) r.2
      if matchesAt input st5.pos closeBraceTok then
        (some ⟨String.mk pr.1, String.mk r.1, template, st5.lineNum⟩,
         { st5 with pos := st5.pos + closeBraceTok.length })
      else (none, st5)
  else (none, { st1 with pos := start + 2 })

/-- The main loop of `parse` (parser.go lines 39-54): at each position,
either match `{{` and attempt a reference, or advance one character,
bumping the line counter at a newline.  References are appended in order of
appearance. -/
def parseLoop (input : List Char) (template : String) :
    Nat → PState → List ValueRef → List ValueRef
  | 0, _, acc => acc
  | fuel + 1, st, acc =>
    if st.pos < input.length then
      if matchesAt input st.pos openBraceTok then
        let r := parseValueRef input
          { st with pos := st.pos + openBraceTok.length } template
        match r.1 with
        | some ref => parseLoop input template fuel r.2 (acc ++ [ref])
        | none => parseLoop input template fuel r.2 acc
      else
        parseLoop input template fuel
          { pos := st.pos + 1,
            lineNum :=
              if currentChar input st.pos = '\n' then st.lineNum + 1
              else st.lineNum }
          acc
    else acc

/-- Model of `ParseFile(content, templatePath)` of parser.go: run the scanner from
position 0, line 1. -/
def ParseFile (content template : String) : List ValueRef :=
  parseLoop content.toList template (maxFuel content.toList) ⟨0, 1⟩ []

/-- No two consecutive dots occur in the character list. -/
def noTwoDots : List Char → Bool
  | c1 :: c2 :: rest => !(c1 = '.' && c2 = '.') && noTwoDots (c2 :: rest)
  | _ => true

/-- The path invariant of the data model: non-empty, only alphanumeric, `.`,
`-`, `_` characters, no two consecutive dots, and no leading or trailing
dot. -/
def validPath (l : List Char) : Bool :=
  !l.isEmpty && l.all isValidPathChar && noTwoDots l &&
    l.head? ≠ some '.' && l.getLast? ≠ some '.'

/-- Observation function: the 1-based line number of character position
`pos` in `input` (one plus the number of newlines strictly before it). -/
def lineOfPos (input : List Char) (pos : Nat) : Nat :=
  1 + ((input.take pos).filter fun c => c = '\n').length

/-! ### The deployment-strategy injector (shcv.go) -/

/-- Go `strings.Split(s, "\n")` on a character list: the list of lines, without
the separators; the empty input yields one empty line, as in Go. -/
def splitNl : List Char → List (List Char)
  | [] => [[]]
  | c :: rest =>
    if c = '\n' then [] :: splitNl rest
    else
      match splitNl rest with
      | [] => [[c]]
      | l :: ls => (c :: l) :: ls

/-- Go `strings.Join(lines, "\n")`. -/
def joinNl : List (List Char) → List Char
  | [] => []
  | [l] => l
  | l :: l2 :: rest => l ++ '\n' :: joinNl (l2 :: rest)

/-- Go's `unicode.IsSpace` restricted to ASCII, as used by
`strings.TrimSpace`. -/
def goIsSpaceChar (c : Char) : Bool :=
  c = ' ' || c = '\t' || c = '\n' || c = '\x0b' || c = '\x0c' || c = '\r'

/-- Drop trailing characters satisfying `p`. -/
def dropWhileEnd (p : Char → Bool) (l : List Char) : List Char :=
  (l.reverse.dropWhile p).reverse

/-- Go `strings.TrimSpace(line)`. -/
def trimSpace (l : List Char) : List Char :=
  dropWhileEnd goIsSpaceChar (l.dropWhile goIsSpaceChar)

/-- Go `strings.Contains(l, sub)`. -/
def containsSub (sub : List Char) : List Char → Bool
  | [] => sub.isEmpty
  | c :: rest => sub.isPrefixOf (c :: rest) || containsSub sub rest

/-- Go `len(line) - len(strings.TrimLeft(line, " "))`: the number of leading
space characters. -/
def leadingSpaces (l : List Char) : Nat :=
  (l.takeWhile fun c => c = ' ').length

/-- Go `strings.Repeat(" ", n)`.  (In Go a negative repeat count panics; the
subtraction producing `n` is natural-number truncated here, which only
differs on inputs where the Go binary would crash.) -/
def repeatSpaces (n : Nat) : List Char :=
  List.replicate n ' '

/-- The literal `template:`. -/
def templateKeyTok : List Char := ['t', 'e', 'm', 'p', 'l', 'a', 't', 'e', ':']

/-- The literal `spec:`. -/
def specKeyTok : List Char := ['s', 'p', 'e', 'c', ':']

/-- The literal `strategy:`. -/
def strategyKeyTok : List Char := ['s', 't', 'r', 'a', 't', 'e', 'g', 'y', ':']

/-- The outcome of the scanning loop of `updateDeploymentTemplate` (shcv.go
lines 385-432): the index and indentation of the root `spec:` line (Go's
`specIndex = -1` becomes `none`) and whether an existing `strategy:` was
found (the loop's `break`). -/
structure ScanResult where
  specIndex : Option Nat
  specIndent : List Char
  strategyExists : Bool


/-- The scanning loop of `updateDeploymentTemplate`, one Go iteration per
line: a line containing `template:` bumps the template depth (entering a
template block at depth 1) and is otherwise skipped; a line whose trim is
exactly `spec:` records the root spec (when outside any template block) and
is otherwise skipped; inside the root spec and outside a template block, a
`strategy:`-prefixed trim stops the scan, and a non-empty line indented at
most as far as `spec:` (measured, as in the source, by the length difference
against the full trim) leaves the root spec; inside a template block, a line
whose leading spaces are at most the root spec indent decrements the
depth. -/
def scanDeployLines :
    List (List Char) → Nat → Option Nat → List Char → Bool → Bool → Nat → ScanResult
  | [], _, specIndex, specIndent, _, _, _ => ⟨specIndex, specIndent, false⟩
  | line :: rest, i, specIndex, specIndent, inSpec, inTemplate, templateDepth =>
    let trimmed := trimSpace line
    if containsSub templateKeyTok line then
      scanDeployLines rest (i + 1) specIndex specIndent inSpec
        (if templateDepth + 1 = 1 then true else inTemplate) (templateDepth + 1)
    else if trimmed = specKeyTok then
      if templateDepth = 0 then
        scanDeployLines rest (i + 1) (some i) (line.take (line.length - trimmed.length))
          true inTemplate templateDepth
      else
        scanDeployLines rest (i + 1) specIndex specIndent inSpec inTemplate templateDepth
    else
      if inSpec && !inTemplate && strategyKeyTok.isPrefixOf trimmed then
        ⟨specIndex, specIndent, true⟩
      else
        let inSpec2 :=
          if inSpec && !inTemplate then
            if line.length ≠ 0 && line.length - trimmed.length ≤ specIndent.length then
              false
            else inSpec
          else inSpec
        if inTemplate && leadingSpaces line ≤ specIndent.length then
          scanDeployLines rest (i + 1) specIndex specIndent inSpec2
            (if templateDepth - 1 = 0 then false else inTemplate) (templateDepth - 1)
        else
          scanDeployLines rest (i + 1) specIndex specIndent inSpec2 inTemplate
            templateDepth

/-- The base-indent search of `updateDeploymentTemplate` (shcv.go lines
440-456), over the lines following `spec:`: the first line that is neither
blank nor a template directive and has some surrounding whitespace supplies
the base indent and the indent width; if none does, the defaults
`specIndent + two spaces` and width 2 apply. -/
def findBaseIndent (specIndent : List Char) : List (List Char) → List Char × Nat
  | [] => (specIndent ++ repeatSpaces 2, 2)
  | line :: rest =>
    let trimmed := trimSpace line
    if trimmed.isEmpty || openBraceTok.isPrefixOf trimmed then
      findBaseIndent specIndent rest
    else if trimmed.length < line.length then
      (line.take (line.length - trimmed.length),
       line.length - trimmed.length - specIndent.length)
    else findBaseIndent specIndent rest

/-- The five inserted lines of the strategy block (shcv.go lines 459-465). -/
def strategySection (baseIndent : List Char) (w : Nat) : List (List Char) :=
  [baseIndent ++ strategyKeyTok,
   baseIndent ++ repeatSpaces w ++
     "type: \x7b\x7b .Values.deployment.strategy.type \x7d\x7d".toList,
   baseIndent ++ repeatSpaces w ++ "rollingUpdate:".toList,
   baseIndent ++ repeatSpaces (w * 2) ++
     "maxSurge: \x7b\x7b .Values.deployment.strategy.rollingUpdate.maxSurge \x7d\x7d".toList,
   baseIndent ++ repeatSpaces (w * 2) ++
     "maxUnavailable: \x7b\x7b .Values.deployment.strategy.rollingUpdate.maxUnavailable \x7d\x7d".toList]

/-- Model of `updateDeploymentTemplate` of shcv.go: scan for the root `spec:` and an
existing root-level `strategy:`; when the strategy was found, or no root
`spec:` exists, return the content unchanged, otherwise splice the strategy
block in right after the `spec:` line. -/
def updateDeploymentTemplate (content : List Char) : List Char :=
  let lines := splitNl content
  let r := scanDeployLines lines 0 none [] false false 0
  if r.strategyExists then content
  else
    match r.specIndex with
    | none => content
    | some idx =>
      let (baseIndent, w) := findBaseIndent r.specIndent (lines.drop (idx + 1))
      joinNl (lines.take (idx + 1) ++ strategySection baseIndent w ++
        lines.drop (idx + 1))

/-- Model of `defaultDeploymentStrategy` of shcv.go. -/
def defaultDeploymentStrategy : Val :=
  Val.vMap [("type", Val.vStr "RollingUpdate"),
            ("rollingUpdate", Val.vMap [("maxSurge", Val.vInt 1),
                                        ("maxUnavailable", Val.vInt 0)])]

/-- Observation function: the `deployment` entry of the tree is missing, is
not a mapping, or is a mapping without a `strategy` key — exactly the
situation in which `injectDeploymentStrategy` injects the default. -/
def strategyMissing (values : Values) : Bool :=
  match getKey values "deployment" with
  | some (Val.vMap m) => !(getKey m "strategy").isSome
  | _ => true

/-- The values-tree update of `injectDeploymentStrategy` (shcv.go lines
284-347) on one values tree with its `Changed` flag: fetch the `deployment`
mapping, replacing a missing or non-mapping entry by an empty mapping; when
it has no `strategy` key, bind `strategy` to (a deep copy of)
`defaultDeploymentStrategy` and mark the tree changed.  The template-file
rewrite the source performs alongside is `updateDeploymentTemplate`. -/
def injectDeploymentStrategy (values : Values) (changed : Bool) : Values × Bool :=
  let (values1, deployment) :=
    match getKey values "deployment" with
    | some (Val.vMap m) => (values, m)
    | some _ => (setKey values "deployment" (Val.vMap []), ([] : Values))
    | none => (setKey values "deployment" (Val.vMap []), ([] : Values))
  if (getKey deployment "strategy").isSome then (values1, changed)
  else
    (setKey values1 "deployment"
      (Val.vMap (setKey deployment "strategy" defaultDeploymentStrategy)), true)

/-! ## Theorems -/

theorem getKey_setKey_self (m : Values) (k : String) (v : Val) :
    getKey (setKey m k v) k = some v := by
  induction m with
  | nil => simp [setKey, getKey]
  | cons hd tl ih =>
    obtain ⟨k2, v2⟩ := hd
    by_cases h : k2 = k
    · simp [setKey, getKey, h]
    · simp [setKey, getKey, h, ih]

theorem getKey_setKey_ne (m : Values) (k j : String) (v : Val) (h : j ≠ k) :
    getKey (setKey m k v) j = getKey m j := by
  have hkj : ¬ k = j := fun hh => h (Eq.symm hh)
  induction m with
  | nil => simp [setKey, getKey, hkj]
  | cons hd tl ih =>
    obtain ⟨k2, v2⟩ := hd
    by_cases h2 : k2 = k
    · subst h2
      simp [setKey, getKey, hkj]
    · simp [setKey, getKey, h2, ih]

theorem exists_setNested_self (parts : List String) :
    ∀ (t : Values) (v : String),
      valueExistsParts (setNestedParts t parts v) parts = true := by
  induction parts with
  | nil => intro t v; rfl
  | cons k rest ih =>
    intro t v
    cases rest with
    | nil => simp [setNestedParts, valueExistsParts, getKey_setKey_self]
    | cons k2 rr =>
      simp only [setNestedParts]
      cases h : getKey t k with
      | none => simp [valueExistsParts, getKey_setKey_self, ih]
      | some w =>
        cases w with
        | vStr s => simp [valueExistsParts, getKey_setKey_self, ih]
        | vInt n => simp [valueExistsParts, getKey_setKey_self, ih]
        | vMap sub => simp [valueExistsParts, getKey_setKey_self, ih]

theorem exists_preserve_set (q : List String) :
    ∀ (t : Values) (p : List String) (v : String),
      valueExistsParts t p = true → valueExistsParts t q = false →
      valueExistsParts (setNestedParts t q v) p = true := by
  induction q with
  | nil => intro t p v hp hq; simp [valueExistsParts] at hq
  | cons k qrest ih =>
    intro t p v hp hq
    cases qrest with
    | nil =>
      have hk : getKey t k = none := by
        cases hk2 : getKey t k with
        | none => rfl
        | some w => simp [valueExistsParts, hk2] at hq
      cases p with
      | nil => rfl
      | cons j prest =>
        cases prest with
        | nil =>
          simp only [valueExistsParts] at hp ⊢
          by_cases hjk : j = k
          · subst hjk; simp [hk] at hp
          · rw [setNestedParts, getKey_setKey_ne _ _ _ _ hjk]; exact hp
        | cons j2 pr =>
          simp only [valueExistsParts] at hp ⊢
          cases hj : getKey t j with
          | none => simp [hj] at hp
          | some w =>
            cases w with
            | vStr s => simp [hj] at hp
            | vInt n => simp [hj] at hp
            | vMap sub =>
              by_cases hjk : j = k
              · subst hjk; rw [hj] at hk; exact absurd hk (by simp)
              · rw [setNestedParts, getKey_setKey_ne _ _ _ _ hjk, hj]
                simp [hj] at hp
                exact hp
    | cons k2 qr =>
      cases p with
      | nil => rfl
      | cons j prest =>
        by_cases hjk : j = k
        · subst hjk
          -- the head keys coincide
          cases hj : getKey t j with
          | none =>
            -- p's walk needs getKey t j to be present
            cases prest with
            | nil => simp [valueExistsParts, hj] at hp
            | cons j2 pr => simp [valueExistsParts, hj] at hp
          | some w =>
            cases w with
            | vStr s =>
              cases prest with
              | nil =>
                simp only [setNestedParts, hj, valueExistsParts,
                  getKey_setKey_self]
                rfl
              | cons j2 pr => simp [valueExistsParts, hj] at hp
            | vInt n =>
              cases prest with
              | nil =>
                simp only [setNestedParts, hj, valueExistsParts,
                  getKey_setKey_self]
                rfl
              | cons j2 pr => simp [valueExistsParts, hj] at hp
            | vMap sub =>
              simp only [setNestedParts, hj]
              cases prest with
              | nil =>
                simp [valueExistsParts, getKey_setKey_self]
              | cons j2 pr =>
                simp only [valueExistsParts, getKey_setKey_self]
                simp only [valueExistsParts, hj] at hp hq
                exact ih sub (j2 :: pr) v hp hq
        · -- different head keys: the j-entry is untouched
          have hpres :
              getKey (setNestedParts t (k :: k2 :: qr) v) j = getKey t j := by
            simp only [setNestedParts]
            cases hk : getKey t k with
            | none => exact getKey_setKey_ne _ _ _ _ hjk
            | some w =>
              cases w with
              | vStr s => exact getKey_setKey_ne _ _ _ _ hjk
              | vInt n => exact getKey_setKey_ne _ _ _ _ hjk
              | vMap sub => exact getKey_setKey_ne _ _ _ _ hjk
          cases prest with
          | nil =>
            simp only [valueExistsParts] at hp ⊢
            rw [hpres]; exact hp
          | cons j2 pr =>
            simp only [valueExistsParts] at hp ⊢
            rw [hpres]
            exact hp

theorem getNested_setNested_self (rest : List String) :
    ∀ (k : String) (t : Values) (v : String),
      getNested (setNestedParts t (k :: rest) v) (k :: rest) = some (Val.vStr v) := by
  induction rest with
  | nil =>
    intro k t v
    simp [setNestedParts, getNested, getKey_setKey_self]
  | cons k2 rr ih =>
    intro k t v
    simp only [setNestedParts]
    cases h : getKey t k with
    | none => simp [getNested, getKey_setKey_self, ih]
    | some w =>
      cases w with
      | vStr s => simp [getNested, getKey_setKey_self, ih]
      | vInt n => simp [getNested, getKey_setKey_self, ih]
      | vMap sub => simp [getNested, getKey_setKey_self, ih]

theorem getNested_preserve_set (q : List String) :
    ∀ (t : Values) (p : List String) (v : String) (w : Val),
      getNested t p = some w → valueExistsParts t q = false →
      strictPrefixOf p q = false →
      getNested (setNestedParts t q v) p = some w := by
  induction q with
  | nil => intro t p v w hp hq hs; simp [valueExistsParts] at hq
  | cons k qrest ih =>
    intro t p v w hp hq hs
    cases qrest with
    | nil =>
      have hk : getKey t k = none := by
        cases hk2 : getKey t k with
        | none => rfl
        | some x => simp [valueExistsParts, hk2] at hq
      cases p with
      | nil => simp [getNested] at hp
      | cons j prest =>
        by_cases hjk : j = k
        · subst hjk
          cases prest with
          | nil => simp [getNested, hk] at hp
          | cons j2 pr => simp [getNested, hk] at hp
        · have hpres : getKey (setNestedParts t [k] v) j = getKey t j := by
            simp only [setNestedParts]
            exact getKey_setKey_ne _ _ _ _ hjk
          cases prest with
          | nil => simp only [getNested] at hp ⊢; rw [hpres]; exact hp
          | cons j2 pr => simp only [getNested] at hp ⊢; rw [hpres]; exact hp
    | cons k2 qr =>
      cases p with
      | nil => simp [getNested] at hp
      | cons j prest =>
        by_cases hjk : j = k
        · subst hjk
          cases prest with
          | nil =>
            -- p = [j] with j = k would make p a strict prefix of q
            simp [strictPrefixOf] at hs
          | cons j2 pr =>
            cases hj : getKey t j with
            | none => simp [getNested, hj] at hp
            | some x =>
              cases x with
              | vStr s => simp [getNested, hj] at hp
              | vInt n => simp [getNested, hj] at hp
              | vMap sub =>
                simp only [setNestedParts, hj]
                simp only [getNested, getKey_setKey_self]
                simp only [getNested, hj] at hp
                simp only [valueExistsParts, hj] at hq
                have hs2 : strictPrefixOf (j2 :: pr) (k2 :: qr) = false := by
                  simpa [strictPrefixOf] using hs
                exact ih sub (j2 :: pr) v w hp hq hs2
        · have hpres :
              getKey (setNestedParts t (k :: k2 :: qr) v) j = getKey t j := by
            simp only [setNestedParts]
            cases hk : getKey t k with
            | none => exact getKey_setKey_ne _ _ _ _ hjk
            | some x =>
              cases x with
              | vStr s => exact getKey_setKey_ne _ _ _ _ hjk
              | vInt n => exact getKey_setKey_ne _ _ _ _ hjk
              | vMap sub => exact getKey_setKey_ne _ _ _ _ hjk
          cases prest with
          | nil => simp only [getNested] at hp ⊢; rw [hpres]; exact hp
          | cons j2 pr => simp only [getNested] at hp ⊢; rw [hpres]; exact hp

theorem notExists_preserve_set (q : List String) :
    ∀ (t : Values) (p : List String) (v : String),
      valueExistsParts t p = false → strictPrefixOf p q = false → p ≠ q →
      valueExistsParts (setNestedParts t q v) p = false := by
  induction q with
  | nil => intro t p v hp hs hne; simpa [setNestedParts] using hp
  | cons k qrest ih =>
    intro t p v hp hs hne
    cases qrest with
    | nil =>
      cases p with
      | nil => simp [valueExistsParts] at hp
      | cons j prest =>
        by_cases hjk : j = k
        · subst hjk
          cases prest with
          | nil => exact absurd rfl hne
          | cons j2 pr =>
            simp only [setNestedParts, valueExistsParts, getKey_setKey_self]
        · have hpres : getKey (setNestedParts t [k] v) j = getKey t j := by
            simp only [setNestedParts]
            exact getKey_setKey_ne _ _ _ _ hjk
          cases prest with
          | nil => simp only [valueExistsParts] at hp ⊢; rw [hpres]; exact hp
          | cons j2 pr => simp only [valueExistsParts] at hp ⊢; rw [hpres]; exact hp
    | cons k2 qr =>
      cases p with
      | nil => simp [valueExistsParts] at hp
      | cons j prest =>
        by_cases hjk : j = k
        · subst hjk
          cases prest with
          | nil => simp [strictPrefixOf] at hs
          | cons j2 pr =>
            have hs2 : strictPrefixOf (j2 :: pr) (k2 :: qr) = false := by
              simpa [strictPrefixOf] using hs
            have hne2 : j2 :: pr ≠ k2 :: qr := by
              intro hh; exact hne (by rw [hh])
            have hempty : ∀ pp : List String, pp = j2 :: pr →
                valueExistsParts ([] : Values) pp = false := by
              intro pp hpp
              subst hpp
              cases pr with
              | nil => simp [valueExistsParts, getKey]
              | cons a b => simp [valueExistsParts, getKey]
            cases hj : getKey t j with
            | none =>
              simp only [setNestedParts, hj, valueExistsParts, getKey_setKey_self]
              exact ih ([] : Values) (j2 :: pr) v (hempty _ rfl) hs2 hne2
            | some x =>
              cases x with
              | vStr s =>
                simp only [setNestedParts, hj, valueExistsParts, getKey_setKey_self]
                exact ih ([] : Values) (j2 :: pr) v (hempty _ rfl) hs2 hne2
              | vInt n =>
                simp only [setNestedParts, hj, valueExistsParts, getKey_setKey_self]
                exact ih ([] : Values) (j2 :: pr) v (hempty _ rfl) hs2 hne2
              | vMap sub =>
                simp only [setNestedParts, hj, valueExistsParts, getKey_setKey_self]
                simp only [valueExistsParts, hj] at hp
                exact ih sub (j2 :: pr) v hp hs2 hne2
        · have hpres :
              getKey (setNestedParts t (k :: k2 :: qr) v) j = getKey t j := by
            simp only [setNestedParts]
            cases hk : getKey t k with
            | none => exact getKey_setKey_ne _ _ _ _ hjk
            | some x =>
              cases x with
              | vStr s => exact getKey_setKey_ne _ _ _ _ hjk
              | vInt n => exact getKey_setKey_ne _ _ _ _ hjk
              | vMap sub => exact getKey_setKey_ne _ _ _ _ hjk
          cases prest with
          | nil => simp only [valueExistsParts] at hp ⊢; rw [hpres]; exact hp
          | cons j2 pr => simp only [valueExistsParts] at hp ⊢; rw [hpres]; exact hp

theorem mapValue_preserve_set (q : List String) :
    ∀ (t : Values) (p : List String) (v : String) (m : Values),
      getNested t p = some (Val.vMap m) → valueExistsParts t q = false →
      ∃ m2, getNested (setNestedParts t q v) p = some (Val.vMap m2) := by
  induction q with
  | nil => intro t p v m hp hq; simp [valueExistsParts] at hq
  | cons k qrest ih =>
    intro t p v m hp hq
    cases qrest with
    | nil =>
      have hk : getKey t k = none := by
        cases hk2 : getKey t k with
        | none => rfl
        | some x => simp [valueExistsParts, hk2] at hq
      cases p with
      | nil => simp [getNested] at hp
      | cons j prest =>
        by_cases hjk : j = k
        · subst hjk
          cases prest with
          | nil => simp [getNested, hk] at hp
          | cons j2 pr => simp [getNested, hk] at hp
        · have hpres : getKey (setNestedParts t [k] v) j = getKey t j := by
            simp only [setNestedParts]
            exact getKey_setKey_ne _ _ _ _ hjk
          cases prest with
          | nil =>
            refine ⟨m, ?_⟩
            simp only [getNested] at hp ⊢; rw [hpres]; exact hp
          | cons j2 pr =>
            refine ⟨m, ?_⟩
            simp only [getNested] at hp ⊢; rw [hpres]; exact hp
    | cons k2 qr =>
      cases p with
      | nil => simp [getNested] at hp
      | cons j prest =>
        by_cases hjk : j = k
        · subst hjk
          cases prest with
          | nil =>
            -- the entry is replaced by an (updated) mapping, so it stays a mapping
            cases hj : getKey t j with
            | none =>
              refine ⟨setNestedParts [] (k2 :: qr) v, ?_⟩
              simp [setNestedParts, hj, getNested, getKey_setKey_self]
            | some x =>
              cases x with
              | vStr s =>
                refine ⟨setNestedParts [] (k2 :: qr) v, ?_⟩
                simp [setNestedParts, hj, getNested, getKey_setKey_self]
              | vInt n =>
                refine ⟨setNestedParts [] (k2 :: qr) v, ?_⟩
                simp [setNestedParts, hj, getNested, getKey_setKey_self]
              | vMap sub =>
                refine ⟨setNestedParts sub (k2 :: qr) v, ?_⟩
                simp [setNestedParts, hj, getNested, getKey_setKey_self]
          | cons j2 pr =>
            cases hj : getKey t j with
            | none => simp [getNested, hj] at hp
            | some x =>
              cases x with
              | vStr s => simp [getNested, hj] at hp
              | vInt n => simp [getNested, hj] at hp
              | vMap sub =>
                simp only [getNested, hj] at hp
                simp only [valueExistsParts, hj] at hq
                obtain ⟨m2, hm2⟩ := ih sub (j2 :: pr) v m hp hq
                refine ⟨m2, ?_⟩
                simp only [setNestedParts, hj, getNested, getKey_setKey_self]
                exact hm2
        · have hpres :
              getKey (setNestedParts t (k :: k2 :: qr) v) j = getKey t j := by
            simp only [setNestedParts]
            cases hk : getKey t k with
            | none => exact getKey_setKey_ne _ _ _ _ hjk
            | some x =>
              cases x with
              | vStr s => exact getKey_setKey_ne _ _ _ _ hjk
              | vInt n => exact getKey_setKey_ne _ _ _ _ hjk
              | vMap sub => exact getKey_setKey_ne _ _ _ _ hjk
          cases prest with
          | nil =>
            refine ⟨m, ?_⟩
            simp only [getNested] at hp ⊢; rw [hpres]; exact hp
          | cons j2 pr =>
            refine ⟨m, ?_⟩
            simp only [getNested] at hp ⊢; rw [hpres]; exact hp

theorem splitDot_ne_nil (l : List Char) : splitDot l ≠ [] := by
  cases l with
  | nil => simp [splitDot]
  | cons c rest =>
    by_cases h : c = '.'
    · simp [splitDot, h]
    · simp only [splitDot, if_neg h]
      cases h2 : splitDot rest with
      | nil => simp
      | cons a b => simp

theorem joinDot_splitDot (l : List Char) : joinDot (splitDot l) = l := by
  induction l with
  | nil => rfl
  | cons c rest ih =>
    by_cases h : c = '.'
    · subst h
      simp only [splitDot, if_pos rfl]
      cases h2 : splitDot rest with
      | nil => exact absurd h2 (splitDot_ne_nil rest)
      | cons a b =>
        rw [h2] at ih
        simp only [joinDot]
        rw [ih]
        simp
    · simp only [splitDot, if_neg h]
      cases h2 : splitDot rest with
      | nil => exact absurd h2 (splitDot_ne_nil rest)
      | cons a b =>
        rw [h2] at ih
        cases b with
        | nil => simp only [joinDot] at ih ⊢; rw [ih]
        | cons b1 bs =>
          simp only [joinDot] at ih ⊢
          rw [List.cons_append, ih]

theorem splitDot_injective {l1 l2 : List Char} (h : splitDot l1 = splitDot l2) :
    l1 = l2 := by
  rw [← joinDot_splitDot l1, ← joinDot_splitDot l2, h]

theorem splitPath_injective {s1 s2 : String} (h : splitPath s1 = splitPath s2) :
    s1 = s2 := by
  have hcomp : (String.toList ∘ fun l : List Char => String.mk l) = id :=
    funext fun l => rfl
  have hdot : splitDot s1.toList = splitDot s2.toList := by
    have h2 := congrArg (List.map String.toList) h
    simp only [splitPath, List.map_map, hcomp, List.map_id] at h2
    exact h2
  have h3 : s1.toList = s2.toList := splitDot_injective hdot
  cases s1 with
  | mk d1 =>
    cases s2 with
    | mk d2 => exact congrArg String.mk h3

theorem splitPath_ne_nil (s : String) : splitPath s ≠ [] := by
  simp [splitPath, splitDot_ne_nil]

theorem applyRefs_preserves_exists (L : List ValueRef) :
    ∀ (t : Values) (ch : Bool) (p : List String),
      valueExistsParts t p = true →
      valueExistsParts (applyRefs L t ch).1 p = true := by
  induction L with
  | nil => intro t ch p hp; exact hp
  | cons r rest ih =>
    intro t ch p hp
    simp only [applyRefs]
    by_cases hg : valueExists t r.Path
    · rw [if_pos hg]; exact ih t ch p hp
    · rw [if_neg hg]
      refine ih _ true p ?_
      exact exists_preserve_set (splitPath r.Path) t p r.DefaultValue hp
        (by simpa [valueExists] using hg)

theorem applyRefs_makes_exist (L : List ValueRef) :
    ∀ (t : Values) (ch : Bool) (r : ValueRef), r ∈ L →
      valueExistsParts (applyRefs L t ch).1 (splitPath r.Path) = true := by
  induction L with
  | nil => intro t ch r hr; simp at hr
  | cons r0 rest ih =>
    intro t ch r hr
    simp only [applyRefs]
    rcases List.mem_cons.mp hr with hhd | htl
    · subst hhd
      by_cases hg : valueExists t r.Path
      · rw [if_pos hg]
        exact applyRefs_preserves_exists rest t ch _ (by simpa [valueExists] using hg)
      · rw [if_neg hg]
        refine applyRefs_preserves_exists rest _ true _ ?_
        exact exists_setNested_self (splitPath r.Path) t r.DefaultValue
    · by_cases hg : valueExists t r0.Path
      · rw [if_pos hg]; exact ih t ch r htl
      · rw [if_neg hg]; exact ih _ true r htl

theorem applyRefs_noop (L : List ValueRef) :
    ∀ (t : Values) (ch : Bool),
      (∀ r ∈ L, valueExistsParts t (splitPath r.Path) = true) →
      applyRefs L t ch = (t, ch) := by
  induction L with
  | nil => intro t ch _; rfl
  | cons r rest ih =>
    intro t ch hall
    have hr : valueExists t r.Path := by
      simpa [valueExists] using hall r (List.mem_cons_self r rest)
    simp only [applyRefs, if_pos hr]
    exact ih t ch fun q hq => hall q (List.mem_cons_of_mem r hq)

theorem applyRefs_preserves_getNested (L : List ValueRef) :
    ∀ (t : Values) (ch : Bool) (p : List String) (w : Val),
      getNested t p = some w →
      (∀ r ∈ L, strictPrefixOf p (splitPath r.Path) = false) →
      getNested (applyRefs L t ch).1 p = some w := by
  induction L with
  | nil => intro t ch p w hp _; exact hp
  | cons r rest ih
 =>
    intro t ch p w hp hs
    simp only [applyRefs]
    by_cases hg : valueExists t r.Path
    · rw [if_pos hg]
      exact ih t ch p w hp fun q hq => hs q (List.mem_cons_of_mem r hq)
    · rw [if_neg hg]
      refine ih _ true p w ?_ fun q hq => hs q (List.mem_cons_of_mem r hq)
      exact getNested_preserve_set (splitPath r.Path) t p r.DefaultValue w hp
        (by simpa [valueExists] using hg) (hs r (List.mem_cons_self r rest))

theorem applyRefs_preserves_mapValue (L : List ValueRef) :
    ∀ (t : Values) (ch : Bool) (p : List String) (m : Values),
      getNested t p = some (Val.vMap m) →
      ∃ m2, getNested (applyRefs L t ch).1 p = some (Val.vMap m2) := by
  induction L with
  | nil => intro t ch p m hp; exact ⟨m, hp⟩
  | cons r rest ih =>
    intro t ch p m hp
    simp only [applyRefs]
    by_cases hg : valueExists t r.Path
    · rw [if_pos hg]; exact ih t ch p m hp
    · rw [if_neg hg]
      obtain ⟨m1, hm1⟩ := mapValue_preserve_set (splitPath r.Path) t p
        r.DefaultValue m hp (by simpa [valueExists] using hg)
      exact ih _ true p m1 hm1

theorem applyRefs_creates (L : List ValueRef) :
    ∀ (t : Values) (ch : Bool) (p : String) (d : String),
      (∃ r ∈ L, r.Path = p) →
      (∀ r ∈ L, r.Path = p → r.DefaultValue = d) →
      valueExistsParts t (splitPath p) = false →
      (∀ r ∈ L, strictPrefixOf (splitPath p) (splitPath r.Path) = false) →
      getNested (applyRefs L t ch).1 (splitPath p) = some (Val.vStr d) := by
  induction L with
  | nil => intro t ch p d hex _ _ _; simp at hex
  | cons r rest ih =>
    intro t ch p d hex hd hne hs
    simp only [applyRefs]
    by_cases hrp : r.Path = p
    · -- the head reference creates the path
      have hg : ¬ valueExists t r.Path := by
        rw [valueExists, hrp]
        simp [hne]
      rw [if_neg hg]
      have hdd : r.DefaultValue = d := hd r (List.mem_cons_self r rest) hrp
      refine applyRefs_preserves_getNested rest _ true _ _ ?_
        fun q hq => hs q (List.mem_cons_of_mem r hq)
      rw [setNestedValue, hrp, hdd]
      obtain ⟨k, pr, hkpr⟩ : ∃ k pr, splitPath p = k :: pr := by
        cases hsp : splitPath p with
        | nil => exact absurd hsp (splitPath_ne_nil p)
        | cons k pr => exact ⟨k, pr, rfl⟩
      rw [hkpr]
      exact getNested_setNested_self pr k t d
    · -- the head reference concerns a different path
      have hex2 : ∃ q ∈ rest, q.Path = p := by
        obtain ⟨q, hq, hqp⟩ := hex
        rcases List.mem_cons.mp hq with hh | ht
        · subst hh; exact absurd hqp hrp
        · exact ⟨q, ht, hqp⟩
      have hd2 : ∀ q ∈ rest, q.Path = p → q.DefaultValue = d :=
        fun q hq => hd q (List.mem_cons_of_mem r hq)
      have hs2 : ∀ q ∈ rest, strictPrefixOf (splitPath p) (splitPath q.Path) = false :=
        fun q hq => hs q (List.mem_cons_of_mem r hq)
      by_cases hg : valueExists t r.Path
      · rw [if_pos hg]
        exact ih t ch p d hex2 hd2 hne hs2
      · rw [if_neg hg]
        refine ih _ true p d hex2 hd2 ?_ hs2
        refine notExists_preserve_set (splitPath r.Path) t (splitPath p)
          r.DefaultValue hne (hs r (List.mem_cons_self r rest)) ?_
        intro hsplit
        exact hrp (splitPath_injective hsplit).symm

theorem collectRefs_paths (all : List ValueRef) :
    ∀ (L : List ValueRef) (seen : List String) (r2 : ValueRef),
      r2 ∈ collectRefs all L seen → ∃ r ∈ L, r2.Path = r.Path := by
  intro L
  induction L with
  | nil => intro seen r2 h; simp [collectRefs] at h
  | cons r rest ih =>
    intro seen r2 h
    simp only [collectRefs] at h
    by_cases hseen : r.Path ∈ seen
    · rw [if_pos hseen] at h
      obtain ⟨q, hq, hqp⟩ := ih seen r2 h
      exact ⟨q, List.mem_cons_of_mem r hq, hqp⟩
    · rw [if_neg hseen] at h
      rcases List.mem_cons.mp h with hh | ht
      · subst hh; exact ⟨r, List.mem_cons_self r rest, rfl⟩
      · obtain ⟨q, hq, hqp⟩ := ih _ r2 ht
        exact ⟨q, List.mem_cons_of_mem r hq, hqp⟩

theorem collectRefs_default (all : List ValueRef) :
    ∀ (L : List ValueRef) (seen : List String),
      (∀ x ∈ L, x ∈ all) →
      ∀ r2 ∈ collectRefs all L seen, r2.DefaultValue = firstDefault all r2.Path := by
  intro L
  induction L with
  | nil => intro seen _ r2 h; simp [collectRefs] at h
  | cons r rest ih =>
    intro seen hsub r2 h
    simp only [collectRefs] at h
    by_cases hseen : r.Path ∈ seen
    · rw [if_pos hseen] at h
      exact ih seen (fun x hx => hsub x (List.mem_cons_of_mem r hx)) r2 h
    · rw [if_neg hseen] at h
      rcases List.mem_cons.mp h with hh | ht
      · subst hh
        simp only [firstDefault]
        cases hf : all.find? (fun q => q.Path == r.Path && q.DefaultValue != "") with
        | some q => simp
        | none =>
          simp only
          have hr : r ∈ all := hsub r (List.mem_cons_self r rest)
          have := List.find?_eq_none.mp hf r hr
          simp at this
          exact this
      · exact ih _ (fun x hx => hsub x (List.mem_cons_of_mem r hx)) r2 ht

theorem collectRefs_covers (all : List ValueRef) :
    ∀ (L : List ValueRef) (seen : List String) (p : String),
      (∃ r ∈ L, r.Path = p) → p ∉ seen →
      ∃ r2 ∈ collectRefs all L seen, r2.Path = p := by
  intro L
  induction L with
  | nil => intro seen p hex _; simp at hex
  | cons r rest ih =>
    intro seen p hex hns
    simp only [collectRefs]
    by_cases hseen : r.Path ∈ seen
    · rw [if_pos hseen]
      have hex2 : ∃ q ∈ rest, q.Path = p := by
        obtain ⟨q, hq, hqp⟩ := hex
        rcases List.mem_cons.mp hq with hh | ht
        · subst hh; exact absurd (hqp ▸ hseen) hns
        · exact ⟨q, ht, hqp⟩
      exact ih seen p hex2 hns
    · rw [if_neg hseen]
      by_cases hrp : r.Path = p
      · refine ⟨_, List.mem_cons_self _ _, hrp⟩
      · have hex2 : ∃ q ∈ rest, q.Path = p := by
          obtain ⟨q, hq, hqp⟩ := hex
          rcases List.mem_cons.mp hq with hh | ht
          · subst hh; exact absurd hqp hrp
          · exact ⟨q, ht, hqp⟩
        have hns2 : p ∉ r.Path :: seen := by
          intro hmem
          rcases List.mem_cons.mp hmem with hh | ht
          · exact hrp hh.symm
          · exact hns ht
        obtain ⟨r2, hr2, hr2p⟩ := ih _ p hex2 hns2
        exact ⟨r2, List.mem_cons_of_mem _ hr2, hr2p⟩

theorem getNested_some_exists (p : List String) :
    ∀ (t : Values) (w : Val), getNested t p = some w →
      valueExistsParts t p = true := by
  induction p with
  | nil => intro t w hp; simp [getNested] at hp
  | cons k rest ih =>
    intro t w hp
    cases rest with
    | nil =>
      simp only [getNested] at hp
      simp [valueExistsParts, hp]
    | cons k2 rr =>
      simp only [getNested] at hp
      cases hk : getKey t k with
      | none => rw [hk] at hp; exact absurd hp (by simp)
      | some x =>
        cases x with
        | vStr s => rw [hk] at hp; exact absurd hp (by simp)
        | vInt n => rw [hk] at hp; exact absurd hp (by simp)
        | vMap sub =>
          rw [hk] at hp
          simp only [valueExistsParts, hk]
          exact ih sub w hp

/-- C1: reconciliation is idempotent — after one pass of the reference-merge
over a values tree, a second pass over the same reference sequence returns
the tree unchanged and leaves a freshly cleared `Changed` flag (here: any
flag value `ch2` the second pass starts from) untouched. -/
theorem C1_reconciliation_idempotent (refs : List ValueRef) (t : Values)
    (ch ch2 : Bool) :
    processReferences refs (processReferences refs t ch).1 ch2
      = ((processReferences refs t ch).1, ch2) := by
  apply applyRefs_noop
  intro r hr
  exact applyRefs_makes_exist (templateRefs refs) t ch r hr

/-- C2 counterexample: in the tree `{a: {b: "x"}}` the path `a.b` resolves to
the existing leaf `"x"`, yet reconciling the references `a.b` and `a.b.c`
replaces that leaf by the mapping `{c: ""}` — the destructive coercion of
`setNestedValue` overwrites an existing leaf, contradicting the claim that an
entry present at its full dot-path is always left exactly as it was. -/
theorem C2_counterexample :
    getNested [("a", Val.vMap [("b", Val.vStr "x")])] (splitPath "a.b")
        = some (Val.vStr "x")
    ∧ getNested (processReferences
          [⟨"a.b", "", "f", 1⟩, ⟨"a.b.c", "", "f", 2⟩]
          [("a", Val.vMap [("b", Val.vStr "x")])] false).1 (splitPath "a.b")
        = some (Val.vMap [("c", Val.vStr "")])
    ∧ (Val.vStr "x" : Val) ≠ Val.vMap [("c", Val.vStr "")] := by
  refine ⟨rfl, rfl, ?_⟩
  intro h
  exact Val.noConfusion h

/-- C2 amended: a reference path that already resolves to an existing entry
is left with exactly its old value by reconciliation, provided no reference
in the sequence has a path of which it is a proper dot-prefix (a longer path
through the entry replaces it by a nested mapping — the documented
destructive coercion); in particular a later duplicate reference to the same
path, whatever its default, never overwrites it. -/
theorem C2_amended_existing_entry_preserved (refs : List ValueRef) (t : Values)
    (ch : Bool) (p : String) (w : Val)
    (hp : getNested t (splitPath p) = some w)
    (hs : ∀ r ∈ refs, strictPrefixOf (splitPath p) (splitPath r.Path) = false) :
    getNested (processReferences refs t ch).1 (splitPath p) = some w := by
  apply applyRefs_preserves_getNested _ t ch _ w hp
  intro q hq
  obtain ⟨r, hr, hrp⟩ := collectRefs_paths refs refs [] q hq
  rw [hrp]
  exact hs r hr

theorem C2_amended_witness :
    getNested (processReferences [⟨"a", "y", "f", 1⟩, ⟨"b", "", "f", 2⟩]
        [("a", Val.vStr "x")] false).1 (splitPath "a") = some (Val.vStr "x") :=
  C2_amended_existing_entry_preserved _ _ _ "a" _ rfl (by decide)

/-- C3: for a path absent from the tree and referenced (possibly several
times), reconciliation creates it with the default of the first reference in
scan order whose default is non-empty, or the empty string when none has
one; the hypothesis that no reference path properly extends `p` only rules
out a later destructive coercion of the created leaf, so that the created
value is still observable in the final tree. -/
theorem C3_first_nonempty_default_wins (refs : List ValueRef) (t : Values)
    (ch : Bool) (p : String)
    (habs : valueExists t p = false)
    (hex : ∃ r ∈ refs, r.Path = p)
    (hs : ∀ r ∈ refs, strictPrefixOf (splitPath p) (splitPath r.Path) = false) :
    getNested (processReferences refs t ch).1 (splitPath p)
      = some (Val.vStr (firstDefault refs p)) := by
  apply applyRefs_creates
  · exact collectRefs_covers refs refs [] p hex (by simp)
  · intro r2 hr2 hp2
    rw [collectRefs_default refs refs [] (fun x hx => hx) r2 hr2, hp2]
  · simpa [valueExists] using habs
  · intro q hq
    obtain ⟨r, hr, hrp⟩ := collectRefs_paths refs refs [] q hq
    rw [hrp]
    exact hs r hr

theorem C3_witness :
    getNested (processReferences
        [⟨"a", "", "f", 1⟩, ⟨"a", "x", "f", 2⟩, ⟨"a", "y", "f", 3⟩]
        [] false).1 (splitPath "a") = some (Val.vStr "x") := by
  have h := C3_first_nonempty_default_wins
    [⟨"a", "", "f", 1⟩, ⟨"a", "x", "f", 2⟩, ⟨"a", "y", "f", 3⟩]
    [] false "a" rfl (by decide) (by decide)
  rw [show firstDefault
    [⟨"a", "", "f", 1⟩, ⟨"a", "x", "f", 2⟩, ⟨"a", "y", "f", 3⟩] "a" = "x" from rfl]
    at h
  exact h

/-- C10 counterexample: in the tree `{a: {}}` the path `a` resolves to an
existing (empty) mapping, yet reconciling the reference `a.b` adds an entry
beneath it, so the mapping is not left untouched as the claim states — the
reference extending the path inserts the missing entry inside it. -/
theorem C10_counterexample :
    getNested [("a", Val.vMap [])] (splitPath "a") = some (Val.vMap [])
    ∧ getNested (processReferences [⟨"a.b", "", "f", 1⟩]
          [("a", Val.vMap [])] false).1 (splitPath "a")
        = some (Val.vMap [("b", Val.vStr "")])
    ∧ (Val.vMap [] : Val) ≠ Val.vMap [("b", Val.vStr "")] := by
  refine ⟨rfl, rfl, ?_⟩
  intro h
  injection h with h2
  cases h2

/-- C10 amended: a path resolving to a nested mapping is treated as present
(`valueExists` is true, so the reference itself causes no write), an
existing mapping is never replaced by a scalar (the final value at the path
is still a mapping), and if no reference path properly extends the path the
mapping and everything beneath it are exactly preserved; references
extending it may still insert missing entries inside it. -/
theorem C10_amended_mapping_is_present (refs : List ValueRef) (t : Values)
    (ch : Bool) (p : String) (m : Values)
    (hp : getNested t (splitPath p) = some (Val.vMap m)) :
    valueExists t p = true
    ∧ (∃ m2, getNested (processReferences refs t ch).1 (splitPath p)
        = some (Val.vMap m2))
    ∧ ((∀ r ∈ refs, strictPrefixOf (splitPath p) (splitPath r.Path) = false) →
        getNested (processReferences refs t ch).1 (splitPath p)
          = some (Val.vMap m)) := by
  refine ⟨?_, ?_, ?_⟩
  · rw [valueExists]
    exact getNested_some_exists (splitPath p) t _ hp
  · exact applyRefs_preserves_mapValue (templateRefs refs) t ch (splitPath p) m hp
  · intro hs
    apply applyRefs_preserves_getNested _ t ch _ _ hp
    intro q hq
    obtain ⟨r, hr, hrp⟩ := collectRefs_paths refs refs [] q hq
    rw [hrp]
    exact hs r hr

theorem C10_amended_witness :
    valueExists [("a", Val.vMap [("x", Val.vStr "1")])] "a" = true
    ∧ getNested (processReferences [⟨"b", "", "f", 1⟩]
          [("a", Val.vMap [("x", Val.vStr "1")])] false).1 (splitPath "a")
        = some (Val.vMap [("x", Val.vStr "1")]) :=
  ⟨(C10_amended_mapping_is_present [⟨"b", "", "f", 1⟩]
      [("a", Val.vMap [("x", Val.vStr "1")])] false "a"
      [("x", Val.vStr "1")] rfl).1,
   (C10_amended_mapping_is_present [⟨"b", "", "f", 1⟩]
      [("a", Val.vMap [("x", Val.vStr "1")])] false "a"
      [("x", Val.vStr "1")] rfl).2.2 (by decide)⟩

/-- C9: when `deployment.strategy` already exists the injector leaves the
tree completely untouched and does not mark it dirty; when it is missing,
the constant strategy is placed at `deployment.strategy`, every existing
sibling key under the `deployment` mapping keeps its value, every other
top-level key keeps its value, and the tree is marked dirty. -/
theorem C9_inject_deployment_strategy :
    (∀ (t : Values) (ch : Bool) (m : Values),
        getKey t "deployment" = some (Val.vMap m) →
        (getKey m "strategy").isSome = true →
        injectDeploymentStrategy t ch = (t, ch))
    ∧ (∀ (t : Values) (ch : Bool), strategyMissing t = true →
        getNested (injectDeploymentStrategy t ch).1 ["deployment", "strategy"]
            = some defaultDeploymentStrategy
        ∧ (injectDeploymentStrategy t ch).2 = true
        ∧ (∀ (m0 : Values), getKey t "deployment" = some (Val.vMap m0) →
            ∀ (k : String) (v : Val), getKey m0 k = some v → k ≠ "strategy" →
              ∃ m2, getKey (injectDeploymentStrategy t ch).1 "deployment"
                  = some (Val.vMap m2) ∧ getKey m2 k = some v)
        ∧ (∀ (k : String), k ≠ "deployment" →
            getKey (injectDeploymentStrategy t ch).1 k = getKey t k)) := by
  constructor
  · intro t ch m hm hstrat
    simp only [injectDeploymentStrategy, hm]
    rw [if_pos hstrat]
  · intro t ch hmiss
    cases hm : getKey t "deployment" with
    | none =>
      simp only [injectDeploymentStrategy, hm]
      rw [if_neg (by simp [getKey])]
      refine ⟨?_, rfl, ?_, ?_⟩
      · simp [getNested, getKey_setKey_self, getKey]
      · intro m0 hmm
        cases hmm
      · intro k hk
        rw [getKey_setKey_ne _ _ _ _ hk, getKey_setKey_ne _ _ _ _ hk]
    | some w =>
      cases w with
      | vStr s =>
        simp only [injectDeploymentStrategy, hm]
        rw [if_neg (by simp [getKey])]
        refine ⟨?_, rfl, ?_, ?_⟩
        · simp [getNested, getKey_setKey_self, getKey]
        · intro m0 hmm
          injection hmm with h2
          cases h2
        · intro k hk
          rw [getKey_setKey_ne _ _ _ _ hk, getKey_setKey_ne _ _ _ _ hk]
      | vInt n =>
        simp only [injectDeploymentStrategy, hm]
        rw [if_neg (by simp [getKey])]
        refine ⟨?_, rfl, ?_, ?_⟩
        · simp [getNested, getKey_setKey_self, getKey]
        · intro m0 hmm
          injection hmm with h2
          cases h2
        · intro k hk
          rw [getKey_setKey_ne _ _ _ _ hk, getKey_setKey_ne _ _ _ _ hk]
      | vMap m =>
        have habs : (getKey m "strategy").isSome = false := by
          rw [strategyMissing, hm] at hmiss
          simpa using hmiss
        simp only [injectDeploymentStrategy, hm]
        rw [if_neg (by simp [habs])]
        refine ⟨?_, rfl, ?_, ?_⟩
        · simp [getNested, getKey_setKey_self]
        · intro m0 hmm k v hkv hkne
          injection hmm with h3
          injection h3 with h4
          refine ⟨setKey m "strategy" defaultDeploymentStrategy,
            getKey_setKey_self _ _ _, ?_⟩
          rw [getKey_setKey_ne _ _ _ _ hkne, h4]
          exact hkv
        · intro k hk
          rw [getKey_setKey_ne _ _ _ _ hk]

theorem C9_witness :
    injectDeploymentStrategy
        [("deployment", Val.vMap [("strategy", Val.vStr "keep")])] true
      = ([("deployment", Val.vMap [("strategy", Val.vStr "keep")])], true)
    ∧ getNested (injectDeploymentStrategy
          [("deployment", Val.vMap [("replicas", Val.vStr "2")])] false).1
        ["deployment", "strategy"] = some defaultDeploymentStrategy
    ∧ (injectDeploymentStrategy
          [("deployment", Val.vMap [("replicas", Val.vStr "2")])] false).2
        = true :=
  ⟨C9_inject_deployment_strategy.1
      [("deployment", Val.vMap [("strategy", Val.vStr "keep")])] true
      [("strategy", Val.vStr "keep")] rfl rfl,
   (C9_inject_deployment_strategy.2
      [("deployment", Val.vMap [("replicas", Val.vStr "2")])] false rfl).1,
   (C9_inject_deployment_strategy.2
      [("deployment", Val.vMap [("replicas", Val.vStr "2")])] false rfl).2.1⟩

theorem pipeLoop_default_independence (input : List Char) :
    ∀ (fuel : Nat) (st : PState) (d1 d2 : List Char),
      (pipeLoop input fuel st d1).2 = (pipeLoop input fuel st d2).2
      ∧ ((pipeLoop input fuel st d1).1 = (pipeLoop input fuel st d2).1
         ∨ ((pipeLoop input fuel st d1).1 = d1
            ∧ (pipeLoop input fuel st d2).1 = d2)) := by
  intro fuel
  induction fuel with
  | zero => intro st d1 d2; exact ⟨rfl, Or.inr ⟨rfl, rfl⟩⟩
  | succ n ih =>
    intro st d1 d2
    simp only [pipeLoop]
    by_cases h1 : st.pos < input.length
    · rw [if_pos h1, if_pos h1]
      by_cases h2 :
          matchesAt input (skipWhitespace input (maxFuel input) st).pos ['|'] = true
      · rw [if_pos h2, if_pos h2]
        by_cases h3 :
            matchesAt input
              (skipWhitespace input (maxFuel input)
                { skipWhitespace input (maxFuel input) st with
                  pos := (skipWhitespace input (maxFuel input) st).pos + 1 }).pos
              defaultFuncTok = true
        · rw [if_pos h3, if_pos h3]
          exact ⟨rfl, Or.inl rfl⟩
        · rw [if_neg h3, if_neg h3]
          exact ih _ d1 d2
      · rw [if_neg h2, if_neg h2]
        exact ⟨rfl, Or.inr ⟨rfl, rfl⟩⟩
    · rw [if_neg h1, if_neg h1]
      exact ⟨rfl, Or.inr ⟨rfl, rfl⟩⟩

/-- C4 counterexample: in `{{ .Values.a | default "x" | default "y" }}` the
first pipe segment carries default `"x"`, but the scanner emits `"y"` — a
later `default` segment overwrites an already-captured default, so the first
pipe segment does not determine the default. -/
theorem C4_counterexample :
    ParseFile
        "\x7b\x7b .Values.a | default \"x\" | default \"y\" \x7d\x7d" "f"
      = [⟨"a", "y", "f", 1⟩]
    ∧ ("y" : String) ≠ "x" := ⟨rfl, by decide⟩

/-- C4 amended: every pipe segment is examined; a segment whose keyword
begins with `default` re-captures the following literal, overwriting any
earlier capture independently of its value (so the last such segment wins),
while segments with other keywords leave the captured default unchanged.
Formally, the pipe loop run from the same state with two different captured
defaults reaches the same final state, and either returns identical defaults
(some `default` segment overwrote the capture) or returns each initial
default unchanged (no segment did); on `| default "x" | quote` the earlier
capture `"x"` survives, and on `| default "x" | default "y"` the last
default `"y"` wins. -/
theorem C4_amended_pipe_segments :
    (∀ (input : List Char) (fuel : Nat) (st : PState) (d1 d2 : List Char),
        (pipeLoop input fuel st d1).2 = (pipeLoop input fuel st d2).2
        ∧ ((pipeLoop input fuel st d1).1 = (pipeLoop input fuel st d2).1
           ∨ ((pipeLoop input fuel st d1).1 = d1
              ∧ (pipeLoop input fuel st d2).1 = d2)))
    ∧ ParseFile "\x7b\x7b .Values.a | default \"x\" | quote \x7d\x7d" "f"
        = [⟨"a", "x", "f", 1⟩]
    ∧ ParseFile
          "\x7b\x7b .Values.a | default \"x\" | default \"y\" \x7d\x7d" "f"
        = [⟨"a", "y", "f", 1⟩] :=
  ⟨fun input fuel st d1 d2 => pipeLoop_default_independence input fuel st d1 d2,
   rfl, rfl⟩

/-- C5: after `{{` the source checks for `.Values.` and, when it is absent,
sets `p.pos = start + 2` where `start` already lies past the two delimiter
characters — so scanning resumes four characters past the `{{`, not
immediately after it, and an opening delimiter beginning within those two
skipped characters is lost: `{{{{ .Values.a }}` yields no reference at all,
while the same tail `{{ .Values.a }}` alone parses to a reference. -/
theorem C5_resync_off_by_two :
    ParseFile "\x7b\x7b\x7b\x7b .Values.a \x7d\x7d" "f" = []
    ∧ ParseFile "\x7b\x7b .Values.a \x7d\x7d" "f" = [⟨"a", "", "f", 1⟩] :=
  ⟨rfl, rfl⟩

theorem noTwoDots_snoc (l : List Char) (c : Char)
    (hl : noTwoDots l = true)
    (hc : l.getLast? = some '.' → c ≠ '.') :
    noTwoDots (l ++ [c]) = true := by
  induction l with
  | nil => simp [noTwoDots]
  | cons a rest ih =>
    cases rest with
    | nil =>
      simp only [List.cons_append, List.nil_append, noTwoDots]
      by_cases ha : a = '.'
      · have hc2 : c ≠ '.' := hc (by rw [ha]; rfl)
        simp [ha, hc2]
      · simp [ha, noTwoDots]
    | cons b rest2 =>
      simp only [noTwoDots] at hl
      have h1 := (Bool.and_eq_true _ _).mp hl
      simp only [List.cons_append, noTwoDots]
      refine (Bool.and_eq_true _ _).mpr ⟨h1.1, ?_⟩
      refine ih h1.2 ?_
      intro hlast
      refine hc ?_
      rw [List.getLast?_cons_cons] at *
      exact hlast

theorem head?_snoc_ne_nil (l : List Char) (c : Char) (h : l ≠ []) :
    (l ++ [c]).head? = l.head? := by
  cases l with
  | nil => exact absurd rfl h
  | cons a rest => rfl

theorem parseValuePathLoop_valid (input : List Char) :
    ∀ (fuel pos : Nat) (acc : List Char) (lwd : Bool),
      (∀ c ∈ acc, isValidPathChar c = true) → noTwoDots acc = true →
      acc.head? ≠ some '.' →
      (lwd = false → acc ≠ [] ∧ acc.getLast? ≠ some '.') →
      (parseValuePathLoop input fuel pos acc lwd).1 ≠ [] →
      validPath (parseValuePathLoop input fuel pos acc lwd).1 = true := by
  intro fuel
  induction fuel with
  | zero =>
    intro pos acc lwd hall hdots hhead hlast hne
    cases lwd with
    | true => simp [parseValuePathLoop] at hne
    | false =>
      obtain ⟨hnil, hlast2⟩ := hlast rfl
      simp only [parseValuePathLoop] at hne ⊢
      simp only [validPath]
      simp [hnil, List.all_eq_true.mpr hall, hdots, hhead, hlast2]
  | succ n ih =>
    intro pos acc lwd hall hdots hhead hlast hne
    simp only [parseValuePathLoop] at hne ⊢
    by_cases h1 : pos < input.length
    · rw [if_pos h1] at hne ⊢
      by_cases h2 : currentChar input pos = '.'
      · rw [if_pos h2] at hne ⊢
        cases lwd with
        | true => simp at hne
        | false =>
          obtain ⟨hnil, hlast2⟩ := hlast rfl
          simp only [Bool.false_eq_true, if_false] at hne ⊢
          refine ih (pos + 1) (acc ++ [currentChar input pos]) true ?_ ?_ ?_ ?_ hne
          · intro c hc
            rcases List.mem_append.mp hc with hc1 | hc2
            · exact hall c hc1
            · rw [List.mem_singleton.mp hc2, h2]
              rfl
          · exact noTwoDots_snoc acc _ hdots (fun hl => absurd hl hlast2)
          · rw [head?_snoc_ne_nil acc _ hnil]
            exact hhead
          · intro hfalse
            cases hfalse
      · rw [if_neg h2] at hne ⊢
        by_cases h3 : isValidPathChar (currentChar input pos) = true
        · rw [if_pos h3] at hne ⊢
          refine ih (pos + 1) (acc ++ [currentChar input pos]) false ?_ ?_ ?_ ?_ hne
          · intro c hc
            rcases List.mem_append.mp hc with hc1 | hc2
            · exact hall c hc1
            · rw [List.mem_singleton.mp hc2]
              exact h3
          · exact noTwoDots_snoc acc _ hdots (fun _ => h2)
          · cases acc with
            | nil =>
              simp only [List.nil_append, List.head?]
              intro hcontra
              exact h2 (Option.some.inj hcontra)
            | cons a rest =>
              rw [head?_snoc_ne_nil (a :: rest) _ (by simp)]
              exact hhead
          · intro _
            refine ⟨by simp, ?_⟩
            rw [List.getLast?_concat]
            intro hcontra
            exact h2 (Option.some.inj hcontra)
        · rw [if_neg h3] at hne ⊢
          cases lwd with
          | true => simp at hne
          | false =>
            obtain ⟨hnil, hlast2⟩ := hlast rfl
            simp only [Bool.false_eq_true, if_false] at hne ⊢
            simp only [validPath]
            simp [hnil, List.all_eq_true.mpr hall, hdots, hhead, hlast2]
    · rw [if_neg h1] at hne ⊢
      cases lwd with
      | true => simp at hne
      | false =>
        obtain ⟨hnil, hlast2⟩ := hlast rfl
        simp only [Bool.false_eq_true, if_false] at hne ⊢
        simp only [validPath]
        simp [hnil, List.all_eq_true.mpr hall, hdots, hhead, hlast2]

theorem parseValueRef_path_valid (input : List Char) (st : PState)
    (template : String) (ref : ValueRef)
    (h : (parseValueRef input st template).1 = some ref) :
    ref.Path.toList ≠ [] ∧ validPath ref.Path.toList = true := by
  simp only [parseValueRef] at h
  by_cases h1 :
      matchesAt input (skipWhitespace input (maxFuel input) st).pos
        valuePrefixTok = true
  · rw [if_pos h1] at h
    by_cases h2 :
        (parseValuePathLoop input (maxFuel input)
          ((skipWhitespace input (maxFuel input) st).pos + valuePrefixTok.length)
          [] true).1.isEmpty = true
    · rw [if_pos h2] at h
      cases h
    · rw [if_neg h2] at h
      by_cases h3 :
          matchesAt input
            (skipWhitespace input (maxFuel input)
              (pipeLoop input (maxFuel input)
                { skipWhitespace input (maxFuel input) st with
                  pos := (parseValuePathLoop input (maxFuel input)
                    ((skipWhitespace input (maxFuel input) st).pos +
                      valuePrefixTok.length) [] true).2 } []).2).pos
            closeBraceTok = true
      · rw [if_pos h3] at h
        have hne : (parseValuePathLoop input (maxFuel input)
            ((skipWhitespace input (maxFuel input) st).pos +
              valuePrefixTok.length) [] true).1 ≠ [] := by
          intro hcontra
          rw [hcontra] at h2
          exact h2 rfl
        have hvalid := parseValuePathLoop_valid input (maxFuel input)
          ((skipWhitespace input (maxFuel input) st).pos + valuePrefixTok.length)
          [] true (by intro c hc; cases hc) rfl (by intro hc; cases hc)
          (by intro hc; cases hc) hne
        have hpath : ref.Path = String.mk (parseValuePathLoop input (maxFuel input)
            ((skipWhitespace input (maxFuel input) st).pos +
              valuePrefixTok.length) [] true).1 := by
          injection h with h4
          rw [← h4]
        rw [hpath]
        exact ⟨hne, hvalid⟩
      · rw [if_neg h3] at h
        cases h
  · rw [if_neg h1] at h
    cases h

theorem parseLoop_paths_valid (input : List Char) (template : String) :
    ∀ (fuel : Nat) (st : PState) (acc : List ValueRef),
      (∀ r ∈ acc, r.Path.toList ≠ [] ∧ validPath r.Path.toList = true) →
      ∀ r ∈ parseLoop input template fuel st acc,
        r.Path.toList ≠ [] ∧ validPath r.Path.toList = true := by
  intro fuel
  induction fuel with
  | zero => intro st acc hacc r hr; exact hacc r hr
  | succ n ih =>
    intro st acc hacc r hr
    simp only [parseLoop] at hr
    by_cases h1 : st.pos < input.length
    · rw [if_pos h1] at hr
      by_cases h2 : matchesAt input st.pos openBraceTok = true
      · rw [if_pos h2] at hr
        cases href : (parseValueRef input
            { st with pos := st.pos + openBraceTok.length } template).1 with
        | some ref2 =>
          rw [href] at hr
          refine ih _ (acc ++ [ref2]) ?_ r hr
          intro q hq
          rcases List.mem_append.mp hq with hq1 | hq2
          · exact hacc q hq1
          · rw [List.mem_singleton.mp hq2]
            exact parseValueRef_path_valid input _ template ref2 href
        | none =>
          rw [href] at hr
          exact ih _ acc hacc r hr
      · rw [if_neg h2] at hr
        exact ih _ acc hacc r hr
    · rw [if_neg h1] at hr
      exact hacc r hr

/-- C6: every reference the scanner emits has a non-empty path made only of
alphanumeric characters, `.`, `-` and `_`, with no two consecutive dots and
no leading or trailing dot; a candidate violating this is not emitted, and in
particular `{{ .Values. }}` yields no reference. -/
theorem C6_emitted_paths_valid :
    (∀ (content template : String) (r : ValueRef), r ∈ ParseFile content template →
        r.Path.toList ≠ [] ∧ validPath r.Path.toList = true)
    ∧ ParseFile "\x7b\x7b .Values. \x7d\x7d" "f" = [] := by
  constructor
  · intro content template r hr
    exact parseLoop_paths_valid content.toList template
      (maxFuel content.toList) ⟨0, 1⟩ [] (by intro q hq; cases hq) r hr
  · rfl

theorem C6_witness :
    ("a.b" : String).toList ≠ [] ∧ validPath ("a.b" : String).toList = true :=
  C6_emitted_paths_valid.1 "\x7b\x7b .Values.a.b \x7d\x7d" "f"
    ⟨"a.b", "", "f", 1⟩ (by rw [show ParseFile "\x7b\x7b .Values.a.b \x7d\x7d" "f"
      = [⟨"a.b", "", "f", 1⟩] from rfl]; exact List.mem_singleton.mpr rfl)

theorem currentChar_mem (l : List Char) (pos : Nat) (h : pos < l.length) :
    currentChar l pos ∈ l := by
  cases hd : l.drop pos with
  | nil =>
    have := List.drop_eq_nil_iff.mp hd
    omega
  | cons c rest =>
    have hc : currentChar l pos = c := by simp [currentChar, hd]
    rw [hc]
    exact List.drop_subset pos l (by rw [hd]; exact List.mem_cons_self c rest)

theorem skipWhitespace_lineNum (input : List Char)
    (hnl : ∀ c ∈ input, c ≠ '\n') :
    ∀ (fuel : Nat) (st : PState),
      (skipWhitespace input fuel st).lineNum = st.lineNum := by
  intro fuel
  induction fuel with
  | zero => intro st; rfl
  | succ n ih =>
    intro st
    simp only [skipWhitespace]
    by_cases hlt : st.pos < input.length
    · by_cases hws : goIsWhitespace (currentChar input st.pos) = true
      · rw [if_pos (by simp [hlt, hws])]
        rw [ih]
        show (if currentChar input st.pos = '\n' then st.lineNum + 1
          else st.lineNum) = st.lineNum
        rw [if_neg (hnl _ (currentChar_mem input st.pos hlt))]
      · rw [if_neg (by simp [hws])]
    · rw [if_neg (by simp [hlt])]

theorem parseDefaultValue_lineNum (input : List Char)
    (hnl : ∀ c ∈ input, c ≠ '\n') (st : PState) :
    (parseDefaultValue input st).2.lineNum = st.lineNum := by
  simp only [parseDefaultValue]
  split
  · exact skipWhitespace_lineNum input hnl (maxFuel input) st
  · exact skipWhitespace_lineNum input hnl (maxFuel input) st

theorem pipeLoop_lineNum (input : List Char)
    (hnl : ∀ c ∈ input, c ≠ '\n') :
    ∀ (fuel : Nat) (st : PState) (dv : List Char),
      (pipeLoop input fuel st dv).2.lineNum = st.lineNum := by
  intro fuel
  induction fuel with
  | zero => intro st dv; rfl
  | succ n ih =>
    intro st dv
    simp only [pipeLoop]
    split
    · split
      · split
        · rw [ih]
          show (parseDefaultValue input _).2.lineNum = st.lineNum
          rw [parseDefaultValue_lineNum input hnl,
            skipWhitespace_lineNum input hnl,
            skipWhitespace_lineNum input hnl,
            skipWhitespace_lineNum input hnl]
        · rw [ih]
          show (skipWhitespace input (maxFuel input) _).lineNum = st.lineNum
          rw [skipWhitespace_lineNum input hnl,
            skipWhitespace_lineNum input hnl]
      · exact skipWhitespace_lineNum input hnl (maxFuel input) st
    · rfl

theorem parseValueRef_lineNum (input : List Char)
    (hnl : ∀ c ∈ input, c ≠ '\n') (st : PState) (template : String) :
    (parseValueRef input st template).2.lineNum = st.lineNum
    ∧ ∀ ref, (parseValueRef input st template).1 = some ref →
        ref.LineNumber = st.lineNum := by
  have hst5 : ∀ (x : PState),
      (skipWhitespace input (maxFuel input)
        (pipeLoop input (maxFuel input) x []).2).lineNum = x.lineNum := by
    intro x
    rw [skipWhitespace_lineNum input hnl, pipeLoop_lineNum input hnl]
  constructor
  · simp only [parseValueRef]
    split
    · split
      · exact skipWhitespace_lineNum input hnl (maxFuel input) st
      · split
        · show (skipWhitespace input (maxFuel input) _).lineNum = st.lineNum
          rw [hst5]
          exact skipWhitespace_lineNum input hnl (maxFuel input) st
        · show (skipWhitespace input (maxFuel input) _).lineNum = st.lineNum
          rw [hst5]
          exact skipWhitespace_lineNum input hnl (maxFuel input) st
    · exact skipWhitespace_lineNum input hnl (maxFuel input) st
  · intro ref href
    simp only [parseValueRef] at href
    by_cases h1 :
        matchesAt input (skipWhitespace input (maxFuel input) st).pos
          valuePrefixTok = true
    · rw [if_pos h1] at href
      by_cases h2 :
          (parseValuePathLoop input (maxFuel input)
            ((skipWhitespace input (maxFuel input) st).pos +
              valuePrefixTok.length) [] true).1.isEmpty = true
      · rw [if_pos h2] at href
        cases href
      · rw [if_neg h2] at href
        by_cases h3 :
            matchesAt input
              (skipWhitespace input (maxFuel input)
                (pipeLoop input (maxFuel input)
                  { skipWhitespace input (maxFuel input) st with
                    pos := (parseValuePathLoop input (maxFuel input)
                      ((skipWhitespace input (maxFuel input) st).pos +
                        valuePrefixTok.length) [] true).2 } []).2).pos
              closeBraceTok = true
        · rw [if_pos h3] at href
          injection href with h4
          rw [← h4]
          show (skipWhitespace input (maxFuel input) _).lineNum = st.lineNum
          rw [hst5]
          exact skipWhitespace_lineNum input hnl (maxFuel input) st
        · rw [if_neg h3] at href
          cases href
    · rw [if_neg h1] at href
      cases href

theorem parseLoop_lineNum_one (input : List Char) (template : String)
    (hnl : ∀ c ∈ input, c ≠ '\n') :
    ∀ (fuel : Nat) (st : PState) (acc : List ValueRef),
      st.lineNum = 1 → (∀ r ∈ acc, r.LineNumber = 1) →
      ∀ r ∈ parseLoop input template fuel st acc, r.LineNumber = 1 := by
  intro fuel
  induction fuel with
  | zero => intro st acc _ hacc r hr; exact hacc r hr
  | succ n ih =>
    intro st acc hst hacc r hr
    simp only [parseLoop] at hr
    by_cases h1 : st.pos < input.length
    · rw [if_pos h1] at hr
      by_cases h2 : matchesAt input st.pos openBraceTok = true
      · rw [if_pos h2] at hr
        cases href : (parseValueRef input
            { st with pos := st.pos + openBraceTok.length } template).1 with
        | some ref2 =>
          rw [href] at hr
          refine ih _ (acc ++ [ref2]) ?_ ?_ r hr
          · rw [(parseValueRef_lineNum input hnl
              { st with pos := st.pos + openBraceTok.length } template).1]
            exact hst
          · intro q hq
            rcases List.mem_append.mp hq with hq1 | hq2
            · exact hacc q hq1
            · rw [List.mem_singleton.mp hq2]
              rw [(parseValueRef_lineNum input hnl
                { st with pos := st.pos + openBraceTok.length } template).2
                ref2 href]
              exact hst
        | none =>
          rw [href] at hr
          refine ih _ acc ?_ hacc r hr
          rw [(parseValueRef_lineNum input hnl
            { st with pos := st.pos + openBraceTok.length } template).1]
          exact hst
      · rw [if_neg h2] at hr
        refine ih _ acc ?_ hacc r hr
        show (if currentChar input st.pos = '\n' then st.lineNum + 1
          else st.lineNum) = 1
        rw [if_neg (hnl _ (currentChar_mem input st.pos h1))]
        exact hst
    · rw [if_neg h1] at hr
      exact hacc r hr

/-- C7 counterexample: in the input `{{\n.Values.a }}` the opening delimiter
begins on line 1, but the emitted reference carries line number 2 — the
scanner records its line counter at emission time, after the whitespace skip
inside the reference has counted the embedded newline. -/
theorem C7_counterexample :
    ParseFile "\x7b\x7b\n.Values.a \x7d\x7d" "f" = [⟨"a", "", "f", 2⟩]
    ∧ lineOfPos ("\x7b\x7b\n.Values.a \x7d\x7d" : String).toList 0 = 1
    ∧ (2 : Nat) ≠ 1 :=
  ⟨rfl, rfl, by decide⟩

/-- C7 amended: the emitted LineNumber is the scanner's line counter at
emission time, which equals the opening delimiter's line whenever no newline
is counted in between — in particular, for an input containing no newline
character at all, every emitted reference carries line number 1.  Newlines
skipped as whitespace inside a reference (or re-scanned after an abandoned
attempt) can push the recorded number past the opening line, while newlines
inside quoted defaults or skipped pipe segments are not counted. -/
theorem C7_amended_line_number (content template : String)
    (hnl : ∀ c ∈ content.toList, c ≠ '\n') :
    ∀ r ∈ ParseFile content template, r.LineNumber = 1 := by
  intro r hr
  exact parseLoop_lineNum_one content.toList template hnl
    (maxFuel content.toList) ⟨0, 1⟩ [] rfl (by intro q hq; cases hq) r hr

theorem C7_amended_witness :
    (⟨"a", "", "f", 1⟩ : ValueRef).LineNumber = 1 :=
  C7_amended_line_number "\x7b\x7b .Values.a \x7d\x7d" "f" (by decide)
    ⟨"a", "", "f", 1⟩
    (by rw [show ParseFile "\x7b\x7b .Values.a \x7d\x7d" "f"
        = [⟨"a", "", "f", 1⟩] from rfl]
        exact List.mem_singleton.mpr rfl)

set_option maxRecDepth 8192 in
/-- C8 counterexample: this Deployment template carries a `strategy:` key
directly under the root `spec:` (after the `template:` block), yet
`updateDeploymentTemplate` still inserts the five-line strategy block after
`spec:` instead of leaving the text byte-for-byte unchanged — once a
`template:` line was seen, only a line indented at or below the root `spec:`
leaves the template block, so a root-level `strategy:` after it is never
examined. -/
theorem C8_counterexample :
    updateDeploymentTemplate
        ("kind: Deployment\nspec:\n  template:\n    spec:\n      foo: bar\n  strategy:\n    type: Recreate").toList
      = ("kind: Deployment\nspec:\n  strategy:\n    type: \x7b\x7b .Values.deployment.strategy.type \x7d\x7d\n    rollingUpdate:\n      maxSurge: \x7b\x7b .Values.deployment.strategy.rollingUpdate.maxSurge \x7d\x7d\n      maxUnavailable: \x7b\x7b .Values.deployment.strategy.rollingUpdate.maxUnavailable \x7d\x7d\n  template:\n    spec:\n      foo: bar\n  strategy:\n    type: Recreate").toList
    ∧ updateDeploymentTemplate
        ("kind: Deployment\nspec:\n  template:\n    spec:\n      foo: bar\n  strategy:\n    type: Recreate").toList
      ≠ ("kind: Deployment\nspec:\n  template:\n    spec:\n      foo: bar\n  strategy:\n    type: Recreate").toList := by
  refine ⟨rfl, ?_⟩
  intro h
  have h3 : ("kind: Deployment\nspec:\n  strategy:\n    type: \x7b\x7b .Values.deployment.strategy.type \x7d\x7d\n    rollingUpdate:\n      maxSurge: \x7b\x7b .Values.deployment.strategy.rollingUpdate.maxSurge \x7d\x7d\n      maxUnavailable: \x7b\x7b .Values.deployment.strategy.rollingUpdate.maxUnavailable \x7d\x7d\n  template:\n    spec:\n      foo: bar\n  strategy:\n    type: Recreate").toList
      = ("kind: Deployment\nspec:\n  template:\n    spec:\n      foo: bar\n  strategy:\n    type: Recreate").toList :=
    (rfl : updateDeploymentTemplate
        ("kind: Deployment\nspec:\n  template:\n    spec:\n      foo: bar\n  strategy:\n    type: Recreate").toList
      = _).symm.trans h
  exact absurd (congrArg List.length h3) (by decide)

set_option maxRecDepth 8192 in
/-- C8 amended: the strategy block is inserted right after the root `spec:`
line unless the scan finds a `strategy:`-prefixed line while inside the root
spec and outside a `template:` block, in which case the text is returned
byte-for-byte unchanged; the scan only exits a `template:` block at a line
indented at or below the root `spec:`, so a `strategy:` under root `spec:`
before any `template:` line suppresses insertion, one found only inside the
pod template's nested `spec:` does not, and neither does a root-level
`strategy:` that follows the `template:` block. -/
theorem C8_amended_strategy_rewrite :
    (∀ content : List Char,
        (scanDeployLines (splitNl content) 0 none [] false false
          0).strategyExists = true →
        updateDeploymentTemplate content = content)
    ∧ updateDeploymentTemplate
        ("kind: Deployment\nspec:\n  strategy:\n    type: Recreate\n  template:\n    spec:\n      foo: bar").toList
      = ("kind: Deployment\nspec:\n  strategy:\n    type: Recreate\n  template:\n    spec:\n      foo: bar").toList
    ∧ updateDeploymentTemplate
        ("kind: Deployment\nspec:\n  replicas: 1\n  template:\n    spec:\n      strategy: weird\nstatus: x").toList
      = ("kind: Deployment\nspec:\n  strategy:\n    type: \x7b\x7b .Values.deployment.strategy.type \x7d\x7d\n    rollingUpdate:\n      maxSurge: \x7b\x7b .Values.deployment.strategy.rollingUpdate.maxSurge \x7d\x7d\n      maxUnavailable: \x7b\x7b .Values.deployment.strategy.rollingUpdate.maxUnavailable \x7d\x7d\n  replicas: 1\n  template:\n    spec:\n      strategy: weird\nstatus: x").toList := by
  refine ⟨?_, rfl, rfl⟩
  intro content h
  simp only [updateDeploymentTemplate]
  rw [if_pos h]

set_option maxRecDepth 8192 in
theorem C8_amended_witness :
    updateDeploymentTemplate
        ("kind: Deployment\nspec:\n  strategy:\n    type: Recreate\n  template:\n    spec:\n      foo: bar").toList
      = ("kind: Deployment\nspec:\n  strategy:\n    type: Recreate\n  template:\n    spec:\n      foo: bar").toList :=
  C8_amended_strategy_rewrite.1
    ("kind: Deployment\nspec:\n  strategy:\n    type: Recreate\n  template:\n    spec:\n      foo: bar").toList rfl

end Shcv
